import Mathlib

/-!
Verification of the worktree indexer (`src/zed/src/worktree.rs`).

Shallow embedding conventions:
* Filesystem names (`OsStr`) are modelled as `String`; paths (`Path`,
  `PathBuf`) as `List String` of components.
* Inodes (`u64`) are modelled as `Nat` (inode arithmetic never overflows in
  the source; inodes are only compared for equality and used as map keys).
* The ordered inode map (`SumTree<Entry>`) is modelled as a `List Entry`
  queried by key with `find?`; keys are unique in every tree the code
  builds, which makes `find?` equivalent to the sum-tree lookup.
* The fuzzy-matcher `PathEntry` is irrelevant to every claim; it is modelled by
  the relative path handed to `PathEntry::new`.
* Fallible Rust code returns `Result`; panics (`unwrap`, `unreachable!`) are
  modelled by explicit result constructors, never by meta-level shortcuts.
-/

/-- Embeds `Entry` from worktree.rs: tagged record for one filesystem node. -/
inductive Entry where
  | Dir (parent : Option Nat) (name : String) (inode : Nat)
        (is_symlink : Bool) (is_ignored : Bool)
        (children : List Nat) (pending : Bool)
  | File (parent : Option Nat) (name : String) (path : List String)
         (inode : Nat) (is_symlink : Bool) (is_ignored : Bool)
  deriving DecidableEq, Repr

/-- Embeds `Entry::ino`. -/
def Entry.ino : Entry → Nat
  | .Dir _ _ inode _ _ _ _ => inode
  | .File _ _ _ inode _ _ => inode

/-- Embeds `Entry::parent`. -/
def Entry.parent : Entry → Option Nat
  | .Dir parent _ _ _ _ _ _ => parent
  | .File parent _ _ _ _ _ => parent

/-- Embeds `Entry::name`. -/
def Entry.name : Entry → String
  | .Dir _ name _ _ _ _ _ => name
  | .File _ name _ _ _ _ => name

/-- The `is_ignored` field of either variant. -/
def Entry.is_ignored : Entry → Bool
  | .Dir _ _ _ _ ig _ _ => ig
  | .File _ _ _ _ _ ig => ig

/-- The children list of a directory entry (`[]` for files). -/
def Entry.childrenL : Entry → List Nat
  | .Dir _ _ _ _ _ children _ => children
  | .File _ _ _ _ _ _ => []

/-- True exactly on the `File` variant, as tested by `Entry::summary`. -/
def Entry.isFile : Entry → Bool
  | .Dir _ _ _ _ _ _ _ => false
  | .File _ _ _ _ _ _ => true

/-- Whether the entry is a directory variant. -/
def Entry.isDir : Entry → Bool
  | .Dir _ _ _ _ _ _ _ => true
  | .File _ _ _ _ _ _ => false

/-- Embeds `EntrySummary`: the associative fold carried by the sum tree. -/
structure EntrySummary where
  max_ino : Nat
  file_count : Nat
  deriving DecidableEq, Repr

/-- Embeds `Default for EntrySummary` (derived in Rust: zero fields). -/
def EntrySummary.default : EntrySummary := { max_ino := 0, file_count := 0 }

/-- Embeds `sum_tree::Item::summary for Entry`. -/
def Entry.summary (e : Entry) : EntrySummary :=
  { max_ino := e.ino, file_count := if e.isFile then 1 else 0 }

/-- Embeds `AddAssign<&EntrySummary>`: right `max_ino` wins, `file_count` adds. -/
def EntrySummary.addAssign (l r : EntrySummary) : EntrySummary :=
  { max_ino := r.max_ino, file_count := l.file_count + r.file_count }

/-- The summary of a whole tree: fold of the item summaries from the
default, as the sum tree computes at its root. -/
def treeSummary (es : List Entry) : EntrySummary :=
  es.foldl (fun acc e => acc.addAssign e.summary) EntrySummary.default

/-- Embeds `SumTree::get(&ino)`: look an entry up by its inode key. -/
def entryGet (es : List Entry) (ino : Nat) : Option Entry :=
  es.find? (fun e => e.ino == ino)

/-- Embeds `Snapshot` from worktree.rs. -/
structure Snapshot where
  id : Nat
  path : List String
  root_inode : Option Nat
  entries : List Entry
  deriving DecidableEq, Repr

/-- Embeds `Snapshot::file_count`: reads the root summary. -/
def Snapshot.file_count (s : Snapshot) : Nat :=
  (treeSummary s.entries).file_count

/-- Result of `Worktree::path_for_inode` and of the parent walk inside it.
`err` is the `anyhow!` error return, `panicked` the `unwrap()` panic on a
parent link that does not resolve, `diverge` a parent walk that never
terminates (possible only on a cyclic parent chain). -/
inductive PathResult where
  | ok (components : List String)
  | err
  | panicked
  | diverge
  deriving DecidableEq, Repr

/-- The `while let Some(parent) = entry.parent()` loop of `path_for_inode`,
accumulating names root-first (the Rust code pushes leaf-first and then
reverses; accumulating into `acc` yields the reversed list directly).
`fuel` bounds the number of iterations; the call site passes the number of
entries, which bounds every terminating walk in a duplicate-free tree. -/
def walkParents (es : List Entry) : Nat → Entry → List String → PathResult
  | 0, e, acc =>
    match e.parent with
    | none => PathResult.ok (e.name :: acc)
    | some _ => PathResult.diverge
  | fuel + 1, e, acc =>
    match e.parent with
    | none => PathResult.ok (e.name :: acc)
    | some p =>
      match entryGet es p with
      | none => PathResult.panicked
      | some pe => walkParents es fuel pe (e.name :: acc)

/-- Embeds `Worktree::path_for_inode(ino, include_root)`. -/
def path_for_inode (s : Snapshot) (ino : Nat) (include_root : Bool) : PathResult :=
  match entryGet s.entries ino with
  | none => PathResult.err
  | some e =>
    match walkParents s.entries s.entries.length e [] with
    | PathResult.ok comps =>
      PathResult.ok (if include_root then comps else comps.drop 1)
    | r => r

/-- Embeds `Worktree::abs_path_for_inode`: root path joined with the relative one. -/
def abs_path_for_inode (s : Snapshot) (ino : Nat) : PathResult :=
  match path_for_inode s ino false with
  | PathResult.ok p => PathResult.ok (s.path ++ p)
  | r => r

/-- Embeds `Snapshot::inode_for_path`, the per-component descent loop. For each
component the current entry must be a directory; its children are scanned
for the first child inode whose entry's name equals the component. -/
def inodeForPathGo (es : List Entry) : Nat → List String → Option Nat
  | ino, [] => some ino
  | ino, c :: rest =>
    match entryGet es ino with
    | some (.Dir _ _ _ _ _ children _) =>
      match children.find? (fun child => (entryGet es child).map Entry.name == some c) with
      | some child => inodeForPathGo es child rest
      | none => none
    | _ => none

/-- Embeds `Snapshot::inode_for_path`. -/
def inode_for_path (s : Snapshot) (path : List String) : Option Nat :=
  s.root_inode.bind (fun root => inodeForPathGo s.entries root path)

/-- Embeds `Snapshot::entry_for_path`. -/
def entry_for_path (s : Snapshot) (path : List String) : Option Entry :=
  (inode_for_path s path).bind (fun ino => entryGet s.entries ino)

/-- Result of `FileHandle::path`, which calls
`path_for_inode(ino, false).unwrap()`: either a path or a panic. -/
inductive HandlePathResult where
  | value (p : List String)
  | panicked
  | diverge
  deriving DecidableEq, Repr

/-- Embeds `FileHandle::path`: `unwrap()` turns the `Err` return of
`path_for_inode` into a panic; an internal panic propagates. -/
def fileHandlePath (s : Snapshot) (ino : Nat) : HandlePathResult :=
  match path_for_inode s ino false with
  | PathResult.ok p => HandlePathResult.value p
  | PathResult.err => HandlePathResult.panicked
  | PathResult.panicked => HandlePathResult.panicked
  | PathResult.diverge => HandlePathResult.diverge

/-- One `Edit::Insert` applied by `SumTree::edit`: replace the entry with
the same key, or add the entry if the key is absent. -/
def insertEntry (es : List Entry) (e : Entry) : List Entry :=
  if es.any (fun x => x.ino == e.ino) then
    es.map (fun x => if x.ino == e.ino then e else x)
  else
    es ++ [e]

/-- Embeds `BackgroundScanner::insert_entries`: one atomic `edit` of a whole batch. -/
def insert_entries (es : List Entry) (batch : List Entry) : List Entry :=
  batch.foldl insertEntry es

/-- A model filesystem node: what `fs::metadata` / `read_dir` report.
Directories list their children as `(file name, node)` pairs in the order
`read_dir` yields them. -/
inductive FsNode where
  | file (inode : Nat) (is_symlink : Bool)
  | dir (inode : Nat) (is_symlink : Bool) (listing : List (String × FsNode))

/-- Embeds `metadata.ino()`. -/
def FsNode.ino : FsNode → Nat
  | .file inode _ => inode
  | .dir inode _ _ => inode

/-- Embeds `ScanJob` from worktree.rs. The scanned directory's `read_dir` listing
stands in for the `path` field's on-disk contents; the ignore matcher is
`None` exactly when the Rust job carries `ignore: None`. -/
structure MScanJob (Ig : Type) where
  ino : Nat
  path : List String
  relative_path : List String
  dir_entry : Entry
  listing : List (String × FsNode)
  ignoreOpt : Option Ig

/-- Finalizing `job.dir_entry` at the end of `scan_dir`:
`*children = new_children; *pending = false`. A `File` job entry would hit
the `unreachable!()` arm; `scan_dir` only ever receives `Dir` entries, and
the model returns the entry unchanged in that impossible case. -/
def Entry.withChildrenDone : Entry → List Nat → Entry
  | .Dir parent name inode sym ig _ _, cs => .Dir parent name inode sym ig cs false
  | e, _ => e

/-- The child loop of `BackgroundScanner::scan_dir`, parametrised by the
ignore matcher interface: `matched ig path is_dir` is
`ig.matched(path, is_dir).is_ignore()` and `addChild ig path` is
`ig.add_child(path)`. Returns the child entries, the child scan jobs and
the `new_children` inode list, each in listing order. -/
def scanChildren {Ig : Type} (matched : Ig → List String → Bool → Bool)
    (addChild : Ig → List String → Ig)
    (jino : Nat) (jpath jrel : List String) (igOpt : Option Ig) :
    List (String × FsNode) → List Entry × List (MScanJob Ig) × List Nat
  | [] => ([], [], [])
  | (name, child) :: rest =>
    let path := jpath ++ [name]
    let rel := jrel ++ [name]
    let r := scanChildren matched addChild jino jpath jrel igOpt rest
    match child with
    | .dir cino csym listing =>
      -- let mut is_ignored = true; let mut ignore = None; then refine when
      -- the job carries a parent matcher
      let pr : Bool × Option Ig :=
        match igOpt with
        | none => (true, none)
        | some parent_ig =>
          let child_ig := addChild parent_ig path
          let isIg := matched child_ig path true || name == ".git"
          (isIg, if isIg then none else some child_ig)
      let de := Entry.Dir (some jino) name cino csym pr.1 [] true
      (de :: r.1,
       { ino := cino, path := path, relative_path := rel, dir_entry := de,
         listing := listing, ignoreOpt := pr.2 } :: r.2.1,
       cino :: r.2.2)
    | .file fino fsym =>
      let isIg :=
        match igOpt with
        | none => true
        | some parent_ig => matched parent_ig path false
      (Entry.File (some jino) name rel fino fsym isIg :: r.1, r.2.1, fino :: r.2.2)

/-- Embeds `BackgroundScanner::scan_dir`: enumerate the directory, then submit one
batch holding every child entry plus the finalized parent entry, and one
new scan job per child directory. -/
def scanDirStep {Ig : Type} (matched : Ig → List String → Bool → Bool)
    (addChild : Ig → List String → Ig) (j : MScanJob Ig) :
    List Entry × List (MScanJob Ig) :=
  let r := scanChildren matched addChild j.ino j.path j.relative_path j.ignoreOpt j.listing
  (r.1 ++ [j.dir_entry.withChildrenDone r.2.2], r.2.1)

/-- The scan-queue draining loop: workers pull jobs until every sender is
dropped. The model processes the queue front-first; `fuel` bounds the
number of jobs processed (any finite filesystem is fully drained by a
large enough fuel, and every claim below is proved for all fuels). The
returned list concatenates the submitted batches in order. -/
def scanRec {Ig : Type} (matched : Ig → List String → Bool → Bool)
    (addChild : Ig → List String → Ig) :
    Nat → List (MScanJob Ig) → List Entry
  | _, [] => []
  | 0, _ :: _ => []
  | fuel + 1, j :: rest =>
    let r := scanDirStep matched addChild j
    r.1 ++ scanRec matched addChild fuel (rest ++ r.2)

/-- Embeds `BackgroundScanner::scan_dirs`, given the root node, the canonical root
path, the root file name and the root ignore matcher built by
`IgnoreBuilder ... add_parents ... add_child` (a separate crate, passed in).
Returns every entry inserted into the snapshot, in insertion order. -/
def scan_dirs {Ig : Type} (matched : Ig → List String → Bool → Bool)
    (addChild : Ig → List String → Ig) (ig0 : Ig)
    (rootAbs : List String) (rootName : String) (root : FsNode)
    (fuel : Nat) : List Entry :=
  match root with
  | .file ino sym =>
    let isIg := matched ig0 rootAbs false
    [Entry.File none rootName [rootName] ino sym isIg]
  | .dir ino sym listing =>
    let isIg := matched ig0 rootAbs true || rootName == ".git"
    let de := Entry.Dir none rootName ino sym isIg [] true
    de :: scanRec matched addChild fuel
      [{ ino := ino, path := rootAbs, relative_path := [rootName],
         dir_entry := de, listing := listing, ignoreOpt := some ig0 }]

/-- Embeds `fsevent::Event`: a full path plus uninterpreted flags. -/
structure MEvent where
  path : List String
  flag : Nat
  deriving DecidableEq, Repr

/-- Kernel-computable lexicographic comparison on char lists (the order in
which `Ord` compares the bytes of two paths). -/
def charListLeB : List Char → List Char → Bool
  | [], _ => true
  | _ :: _, [] => false
  | a :: as, b :: bs => if a < b then true else if a = b then charListLeB as bs else false

/-- Lexicographic `<=` on strings. -/
def strLeB (a b : String) : Bool := charListLeB a.data b.data

/-- Embeds `Path` comparison: lexicographic over components. -/
def pathLeB : List String → List String → Bool
  | [], _ => true
  | _ :: _, [] => false
  | a :: as, b :: bs => if a = b then pathLeB as bs else strLeB a b

/-- Embeds `events.sort_unstable_by(|a, b| a.path.cmp(&b.path))`. -/
def sortEventsByPath (events : List MEvent) : List MEvent :=
  events.insertionSort (fun a b => pathLeB a.path b.path = true)

/-- The path sequence `process_events` iterates over after its
preprocessing: the events sorted by path, each mapped to its path. No
deduplication is performed. -/
def processedEventPaths (events : List MEvent) : List (List String) :=
  (sortEventsByPath events).map MEvent.path

/-- Keep only the first occurrence of each path. -/
def dedupKeepFirstAux (seen : List (List String)) :
    List (List String) → List (List String)
  | [] => []
  | p :: rest =>
    if p ∈ seen then dedupKeepFirstAux seen rest
    else p :: dedupKeepFirstAux (p :: seen) rest

/-- Modelled from the spec: "Sort events by path lexicographically.
Deduplicate keeping first occurrence per path within the batch." The
deduplication step is absent from `process_events` in the source; this
definition follows the spec's words for comparison. -/
def specProcessedEventPaths (events : List MEvent) : List (List String) :=
  dedupKeepFirstAux [] (processedEventPaths events)

/-- Embeds `ScanState` from worktree.rs; the `io::Error` payload is abstracted to
a numeric code. -/
inductive MScanState where
  | Idle
  | Scanning
  | Err (code : Nat)
  deriving DecidableEq, Repr

/-- Embeds `results.into_iter().collect::<io::Result<()>>()` at the end of
`scan_dirs`: the first worker error, if any, is the collected result. -/
def collectResults : List (Except Nat Unit) → Except Nat Unit
  | [] => Except.ok ()
  | Except.ok () :: rest => collectResults rest
  | Except.error e :: _ => Except.error e

/-- Outcome of `BackgroundScanner::run` up to entering the event loop:
the `ScanState` messages sent over the notify channel, in order, and
whether control reaches `event_stream.run()`. The receiver is modelled as
staying alive (each `send` succeeds), which is the regime the claim about
message order speaks of. -/
structure RunOutcome where
  sent : List MScanState
  reachesEventLoop : Bool
  deriving DecidableEq, Repr

/-- Embeds `BackgroundScanner::run`, given the result of `scan_dirs`: send
`Scanning`, scan, on error send `Err(e)` once, send `Idle`, then enter
`event_stream.run()`. -/
def runScanner (scanOutcome : Except Nat Unit) : RunOutcome :=
  let sent := [MScanState.Scanning]
  let sent :=
    match scanOutcome with
    | Except.error e => sent ++ [MScanState.Err e]
    | Except.ok () => sent
  { sent := sent ++ [MScanState.Idle], reachesEventLoop := true }

/-- Count of `Err` messages in a sent sequence. -/
def countErrs (l : List MScanState) : Nat :=
  (l.filter (fun m => match m with | MScanState.Err _ => true | _ => false)).length

/-- Embeds `editor::History`: `History::new(base_text)` stores the loaded text. -/
structure History where
  base_text : String
  deriving DecidableEq, Repr

/-- The model filesystem contents: file path to file bytes. -/
abbrev FsContents := List (List String × String)

/-- Reading a file (`File::open` + `read_to_string`): `none` is an I/O
error (no such file). -/
def fsRead (fs : FsContents) (p : List String) : Option String :=
  (fs.find? (fun kv => kv.1 == p)).map (fun kv => kv.2)

/-- Embeds `File::create` + writing: truncate-or-create the file at `p`. -/
def fsWrite (fs : FsContents) (p : List String) (c : String) : FsContents :=
  if fs.any (fun kv => kv.1 == p) then
    fs.map (fun kv => if kv.1 == p then (p, c) else kv)
  else
    fs ++ [(p, c)]

/-- Embeds `Worktree::save`: resolve the inode's absolute path, then stream every
fragment of the buffer snapshot through a buffered writer and flush — the
file ends up holding the concatenation of the fragments. `none` models the
task completing with an `Err` (unresolvable inode, or the panicking /
diverging walk aborting the task). -/
def save (s : Snapshot) (fs : FsContents) (ino : Nat)
    (fragments : List String) : Option FsContents :=
  match abs_path_for_inode s ino with
  | PathResult.ok p => some (fsWrite fs p (String.join fragments))
  | _ => none

/-- Embeds `Worktree::load_history`: resolve the absolute path, read the file,
wrap it in `History::new`. -/
def load_history (s : Snapshot) (fs : FsContents) (ino : Nat) : Option History :=
  match abs_path_for_inode s ino with
  | PathResult.ok p => (fsRead fs p).map (fun t => { base_text := t })
  | _ => none

theorem treeSummary_fold (es : List Entry) (acc : EntrySummary) :
    (es.foldl (fun a e => a.addAssign e.summary) acc).file_count
      = acc.file_count + (es.filter Entry.isFile).length := by
  induction es generalizing acc with
  | nil => simp [List.foldl]
  | cons e t ih =>
    rw [List.foldl_cons, ih]
    cases e with
    | Dir p n i sy ig cs pe =>
      simp [EntrySummary.addAssign, Entry.summary, Entry.isFile, List.filter_cons]
    | File p n pa i sy ig =>
      simp [EntrySummary.addAssign, Entry.summary, Entry.isFile, List.filter_cons]
      omega

/-- C2: for every snapshot, `file_count()` equals the number of `File`
entries in `entries`: each `File` contributes 1 and each `Dir` contributes
0 to the summary, and the per-entry summaries are folded with the
associative `AddAssign` over the map. -/
theorem file_count_counts_files :
    (∀ s : Snapshot, s.file_count = (s.entries.filter Entry.isFile).length) ∧
    (∀ e : Entry, e.summary.file_count = if e.isFile then 1 else 0) ∧
    (∀ a b c : EntrySummary,
      (a.addAssign b).addAssign c = a.addAssign (b.addAssign c)) := by
  refine ⟨fun s => ?_, fun e => rfl, fun a b c => ?_⟩
  · have h := treeSummary_fold s.entries EntrySummary.default
    simpa [Snapshot.file_count, treeSummary, EntrySummary.default] using h
  · simp [EntrySummary.addAssign, Nat.add_assoc]

/-- Whether a worker result is an error. -/
def isErrB : Except Nat Unit → Bool
  | Except.error _ => true
  | Except.ok _ => false

theorem collectResults_spec (results : List (Except Nat Unit)) :
    (results.any isErrB = true ∧ ∃ e, collectResults results = Except.error e) ∨
    (results.any isErrB = false ∧ collectResults results = Except.ok ()) := by
  induction results with
  | nil => exact Or.inr ⟨rfl, rfl⟩
  | cons r t ih =>
    cases r with
    | error e => exact Or.inl ⟨by simp [isErrB], e, rfl⟩
    | ok u =>
      cases u
      rcases ih with ⟨ha, e, hc⟩ | ⟨ha, hc⟩
      · exact Or.inl ⟨by simp [isErrB, ha], e, by simpa [collectResults] using hc⟩
      · exact Or.inr ⟨by simp [isErrB, ha], by simpa [collectResults] using hc⟩

/-- C8: the scanner sends `Scanning` before the initial scan and `Idle`
after the workers drain; the first worker I/O error, when one occurred, is
reported exactly once as `Err(e)` between them, and in either case control
falls through to `event_stream.run()` instead of terminating. -/
theorem run_scan_state_protocol (results : List (Except Nat Unit)) :
    (runScanner (collectResults results)).sent.head? = some MScanState.Scanning ∧
    (runScanner (collectResults results)).sent.getLast? = some MScanState.Idle ∧
    countErrs (runScanner (collectResults results)).sent
      = (if results.any isErrB then 1 else 0) ∧
    (runScanner (collectResults results)).reachesEventLoop = true := by
  rcases collectResults_spec results with ⟨ha, e, hc⟩ | ⟨ha, hc⟩ <;>
    simp [hc, runScanner, countErrs, ha]

/-- C10: `FileHandle::path` panics (through `unwrap` on the
`path_for_inode` result) whenever the handle's inode is absent from the
worktree's current snapshot; it does not return an error value. -/
theorem fileHandle_path_panics_on_missing_inode (s : Snapshot) (ino : Nat)
    (h : entryGet s.entries ino = none) :
    fileHandlePath s ino = HandlePathResult.panicked := by
  simp [fileHandlePath, path_for_inode, h]

/-- Witness for C10: a deleted (never indexed) inode panics the handle. -/
theorem fileHandle_path_panic_witness :
    fileHandlePath { id := 0, path := ["tmp"], root_inode := none, entries := [] } 5
      = HandlePathResult.panicked :=
  fileHandle_path_panics_on_missing_inode _ 5 rfl

theorem fsRead_fsWrite (fs : FsContents) (p : List String) (c : String) :
    fsRead (fsWrite fs p c) p = some c := by
  unfold fsWrite
  by_cases hany : fs.any (fun kv => kv.1 == p) = true
  · rw [if_pos hany]
    induction fs with
    | nil => simp at hany
    | cons kv t ih =>
      by_cases hk : kv.1 = p
      · simp [fsRead, hk]
      · have ht : t.any (fun kv => kv.1 == p) = true := by
          simpa [List.any_cons, hk] using hany
        simpa [fsRead, hk] using ih ht
  · rw [if_neg hany]
    induction fs with
    | nil => simp [fsRead]
    | cons kv t ih =>
      have hk : ¬ kv.1 = p := by
        intro h; exact hany (by simp [List.any_cons, h])
      have ht : ¬ t.any (fun kv => kv.1 == p) = true := by
        intro h; exact hany (by simp [List.any_cons, h])
      simpa [fsRead, hk] using ih ht

/-- C4: saving buffer content to a file inode and then loading that
inode's history yields a `History` whose base text is exactly the saved
content (the concatenation of the buffer fragments the writer streamed). -/
theorem save_then_load_history (s : Snapshot) (fs : FsContents) (ino : Nat)
    (fragments : List String) (fs2 : FsContents)
    (h : save s fs ino fragments = some fs2) :
    load_history s fs2 ino = some { base_text := String.join fragments } := by
  unfold save at h
  unfold load_history
  cases habs : abs_path_for_inode s ino with
  | ok p =>
    rw [habs] at h
    cases h
    simp [fsRead_fsWrite]
  | err => rw [habs] at h; cases h
  | panicked => rw [habs] at h; cases h
  | diverge => rw [habs] at h; cases h

/-- Witness for C4: a one-file worktree round-trips its saved content. -/
theorem save_then_load_history_witness :
    save { id := 0, path := ["tmp", "root"], root_inode := some 1,
           entries := [Entry.Dir none "root" 1 false false [2] false,
                       Entry.File (some 1) "f" ["root", "f"] 2 false false] }
        [] 2 ["line one\n", "line two\n"]
      = some [(["tmp", "root", "f"], "line one\nline two\n")] ∧
    load_history { id := 0, path := ["tmp", "root"], root_inode := some 1,
                   entries := [Entry.Dir none "root" 1 false false [2] false,
                               Entry.File (some 1) "f" ["root", "f"] 2 false false] }
        [(["tmp", "root", "f"], "line one\nline two\n")] 2
      = some { base_text := "line one\nline two\n" } :=
  ⟨by decide,
   save_then_load_history _ [] 2 ["line one\n", "line two\n"] _ (by decide)⟩

theorem charListLeB_total (xs ys : List Char) :
    charListLeB xs ys = true ∨ charListLeB ys xs = true := by
  induction xs generalizing ys with
  | nil => exact Or.inl rfl
  | cons a as ih =>
    cases ys with
    | nil => exact Or.inr rfl
    | cons b bs =>
      rcases lt_trichotomy a b with hlt | heq | hgt
      · exact Or.inl (by simp [charListLeB, hlt])
      · subst heq
        rcases ih bs with h | h
        · exact Or.inl (by simp [charListLeB, h])
        · exact Or.inr (by simp [charListLeB, h])
      · exact Or.inr (by simp [charListLeB, hgt])

theorem charListLeB_trans (xs ys zs : List Char)
    (h1 : charListLeB xs ys = true) (h2 : charListLeB ys zs = true) :
    charListLeB xs zs = true := by
  induction xs generalizing ys zs with
  | nil => rfl
  | cons a as ih =>
    cases ys with
    | nil => simp [charListLeB] at h1
    | cons b bs =>
      cases zs with
      | nil => simp [charListLeB] at h2
      | cons c cs =>
        by_cases hab : a < b
        · by_cases hbc : b < c
          · simp [charListLeB, lt_trans hab hbc]
          · by_cases hbc' : b = c
            · subst hbc'; simp [charListLeB, hab]
            · simp [charListLeB, hbc, hbc'] at h2
        · by_cases hab' : a = b
          · subst hab'
            by_cases hac : a < c
            · simp [charListLeB, hac]
            · by_cases hac' : a = c
              · subst hac'
                simp only [charListLeB, lt_irrefl, if_false, if_pos rfl] at h1 h2 ⊢
                exact ih bs cs h1 h2
              · simp [charListLeB, hac, hac'] at h2
          · simp [charListLeB, hab, hab'] at h1

theorem charListLeB_antisymm (xs ys : List Char)
    (h1 : charListLeB xs ys = true) (h2 : charListLeB ys xs = true) : xs = ys := by
  induction xs generalizing ys with
  | nil =>
    cases ys with
    | nil => rfl
    | cons b bs => simp [charListLeB] at h2
  | cons a as ih =>
    cases ys with
    | nil => simp [charListLeB] at h1
    | cons b bs =>
      by_cases hab : a < b
      · by_cases hba : b < a
        · exact absurd hba (lt_asymm hab)
        · by_cases hba' : b = a
          · exact absurd hba'.symm (ne_of_lt hab)
          · simp [charListLeB, hba, hba'] at h2
      · by_cases hab' : a = b
        · subst hab'
          simp only [charListLeB, lt_irrefl, if_false, if_pos rfl] at h1 h2
          rw [ih bs h1 h2]
        · simp [charListLeB, hab, hab'] at h1

theorem strLeB_total (a b : String) : strLeB a b = true ∨ strLeB b a = true :=
  charListLeB_total a.data b.data

theorem strLeB_trans (a b c : String) (h1 : strLeB a b = true)
    (h2 : strLeB b c = true) : strLeB a c = true :=
  charListLeB_trans a.data b.data c.data h1 h2

theorem strLeB_antisymm (a b : String) (h1 : strLeB a b = true)
    (h2 : strLeB b a = true) : a = b := by
  apply String.ext
  exact charListLeB_antisymm a.data b.data h1 h2

theorem pathLeB_total (p q : List String) :
    pathLeB p q = true ∨ pathLeB q p = true := by
  induction p generalizing q with
  | nil => exact Or.inl rfl
  | cons a as ih =>
    cases q with
    | nil => exact Or.inr rfl
    | cons b bs =>
      by_cases hab : a = b
      · subst hab
        rcases ih bs with h | h
        · exact Or.inl (by simp [pathLeB, h])
        · exact Or.inr (by simp [pathLeB, h])
      · rcases strLeB_total a b with h | h
        · exact Or.inl (by simp [pathLeB, hab, h])
        · exact Or.inr (by simp [pathLeB, Ne.symm hab, h])

theorem pathLeB_trans (p q r : List String) (h1 : pathLeB p q = true)
    (h2 : pathLeB q r = true) : pathLeB p r = true := by
  induction p generalizing q r with
  | nil => rfl
  | cons a as ih =>
    cases q with
    | nil => simp [pathLeB] at h1
    | cons b bs =>
      cases r with
      | nil => simp [pathLeB] at h2
      | cons c cs =>
        by_cases hab : a = b
        · subst hab
          by_cases hac : a = c
          · subst hac
            simp only [pathLeB, if_pos rfl] at h1 h2 ⊢
            exact ih bs cs h1 h2
          · simpa [pathLeB, hac] using h2
        · by_cases hbc : b = c
          · subst hbc
            simpa [pathLeB, hab] using h1
          · by_cases hac : a = c
            · subst hac
              rw [pathLeB, if_neg hab] at h1
              rw [pathLeB, if_neg hbc] at h2
              exact absurd (strLeB_antisymm a b h1 h2) hab
            · rw [pathLeB, if_neg hab] at h1
              rw [pathLeB, if_neg hbc] at h2
              rw [pathLeB, if_neg hac]
              exact strLeB_trans a b c h1 h2

/-- C7 counterexample: a batch holding two events for the same path. The
path sequence `process_events` iterates over keeps both occurrences,
whereas the claimed preprocessing (sort, then deduplicate keeping the
first occurrence per path) would keep one. -/
theorem process_events_no_dedup_counterexample :
    processedEventPaths
        [{ path := ["a"], flag := 0 }, { path := ["a"], flag := 1 }]
      = [["a"], ["a"]] ∧
    specProcessedEventPaths
        [{ path := ["a"], flag := 0 }, { path := ["a"], flag := 1 }]
      = [["a"]] ∧
    processedEventPaths
        [{ path := ["a"], flag := 0 }, { path := ["a"], flag := 1 }]
      ≠ specProcessedEventPaths
        [{ path := ["a"], flag := 0 }, { path := ["a"], flag := 1 }] :=
  ⟨by decide, by decide, by decide⟩

/-- C7 as amended: before any event is resolved against the snapshot,
`process_events` sorts the batch by path lexicographically; it performs no
deduplication, so the processed path sequence is a permutation of the
batch's paths with every duplicate retained. -/
theorem process_events_sorts_without_dedup (events : List MEvent) :
    List.Pairwise (fun p q => pathLeB p q = true) (processedEventPaths events) ∧
    (processedEventPaths events).Perm (events.map MEvent.path) := by
  constructor
  · have hs : List.Sorted (fun a b : MEvent => pathLeB a.path b.path = true)
        (sortEventsByPath events) := by
      haveI : IsTotal MEvent (fun a b : MEvent => pathLeB a.path b.path = true) :=
        ⟨fun a b => pathLeB_total a.path b.path⟩
      haveI : IsTrans MEvent (fun a b : MEvent => pathLeB a.path b.path = true) :=
        ⟨fun a b c => pathLeB_trans a.path b.path c.path⟩
      exact List.sorted_insertionSort _ events
    exact List.pairwise_map.mpr hs
  · exact (List.perm_insertionSort _ events).map MEvent.path

theorem scanChildren_inos {Ig : Type} (m : Ig → List String → Bool → Bool)
    (ac : Ig → List String → Ig) (jino : Nat) (jpath jrel : List String)
    (igOpt : Option Ig) (listing : List (String × FsNode)) :
    (scanChildren m ac jino jpath jrel igOpt listing).2.2
      = listing.map (fun x => x.2.ino) := by
  induction listing with
  | nil => rfl
  | cons hd rest ih =>
    obtain ⟨name, child⟩ := hd
    cases child with
    | file fino fsym => simpa [scanChildren, FsNode.ino] using ih
    | dir cino csym lst => simpa [scanChildren, FsNode.ino] using ih

theorem scanChildren_covers {Ig : Type} (m : Ig → List String → Bool → Bool)
    (ac : Ig → List String → Ig) (jino : Nat) (jpath jrel : List String)
    (igOpt : Option Ig) (listing : List (String × FsNode)) :
    ∀ k ∈ (scanChildren m ac jino jpath jrel igOpt listing).2.2,
      ∃ e ∈ (scanChildren m ac jino jpath jrel igOpt listing).1, e.ino = k := by
  induction listing with
  | nil => intro k hk; simp [scanChildren] at hk
  | cons hd rest ih =>
    obtain ⟨name, child⟩ := hd
    intro k hk
    cases child with
    | file fino fsym =>
      simp only [scanChildren, List.mem_cons] at hk
      rcases hk with rfl | hk
      · exact ⟨_, List.mem_cons_self _ _, rfl⟩
      · obtain ⟨e, he, hei⟩ := ih k hk
        exact ⟨e, List.mem_cons_of_mem _ he, hei⟩
    | dir cino csym lst =>
      simp only [scanChildren, List.mem_cons] at hk
      rcases hk with rfl | hk
      · exact ⟨_, List.mem_cons_self _ _, rfl⟩
      · obtain ⟨e, he, hei⟩ := ih k hk
        exact ⟨e, List.mem_cons_of_mem _ he, hei⟩

theorem insertEntry_adds (es : List Entry) (x : Entry) :
    ∃ e ∈ insertEntry es x, e.ino = x.ino := by
  unfold insertEntry
  by_cases h : es.any (fun e => e.ino == x.ino) = true
  · rw [if_pos h]
    rcases List.any_eq_true.mp h with ⟨y, hy, hyk⟩
    refine ⟨x, ?_, rfl⟩
    exact List.mem_map.mpr ⟨y, hy, by simp [hyk]⟩
  · rw [if_neg h]
    exact ⟨x, List.mem_append_right _ (List.mem_singleton_self x), rfl⟩

theorem insertEntry_keeps (es : List Entry) (x : Entry) (k : Nat)
    (h : ∃ e ∈ es, e.ino = k) : ∃ e ∈ insertEntry es x, e.ino = k := by
  obtain ⟨e, he, hek⟩ := h
  unfold insertEntry
  by_cases hany : es.any (fun e => e.ino == x.ino) = true
  · rw [if_pos hany]
    by_cases hex : e.ino = x.ino
    · refine ⟨x, ?_, by rw [← hex, hek]⟩
      exact List.mem_map.mpr ⟨e, he, by simp [hex]⟩
    · refine ⟨e, ?_, hek⟩
      exact List.mem_map.mpr ⟨e, he, by simp [hex]⟩
  · rw [if_neg hany]
    exact ⟨e, List.mem_append_left _ he, hek⟩

theorem insert_entries_keeps (batch : List Entry) (es : List Entry) (k : Nat)
    (h : ∃ e ∈ es, e.ino = k) : ∃ e ∈ insert_entries es batch, e.ino = k := by
  induction batch generalizing es with
  | nil => exact h
  | cons b rest ih => exact ih (insertEntry es b) (insertEntry_keeps es b k h)

theorem insert_entries_covers (batch : List Entry) (es : List Entry) (k : Nat)
    (h : ∃ e ∈ batch, e.ino = k) : ∃ e ∈ insert_entries es batch, e.ino = k := by
  induction batch generalizing es with
  | nil => simp at h
  | cons b rest ih =>
    obtain ⟨e, he, hek⟩ := h
    rcases List.mem_cons.mp he with rfl | he'
    · exact insert_entries_keeps rest (insertEntry es e) k
        (hek ▸ insertEntry_adds es e)
    · exact ih (insertEntry es b) ⟨e, he', hek⟩

/-- C3: `scan_dir` submits exactly one edit batch per directory: the batch
contains the finalized parent directory entry — children set to the
enumerated child inodes in listing order, `pending` cleared — together
with an entry for every one of those child inodes, so after the atomic
edit every inode in the parent's `children` resolves in the map. -/
theorem scan_dir_single_atomic_batch {Ig : Type}
    (matched : Ig → List String → Bool → Bool) (addChild : Ig → List String → Ig)
    (j : MScanJob Ig) (parent : Option Nat) (nm : String) (ei : Nat)
    (sy ig : Bool) (cs : List Nat) (pend : Bool)
    (hj : j.dir_entry = Entry.Dir parent nm ei sy ig cs pend) :
    Entry.Dir parent nm ei sy ig (j.listing.map (fun x => x.2.ino)) false
        ∈ (scanDirStep matched addChild j).1 ∧
    (∀ k ∈ j.listing.map (fun x => x.2.ino),
      ∃ e ∈ (scanDirStep matched addChild j).1, e.ino = k) ∧
    (∀ es0 : List Entry, ∀ k ∈ j.listing.map (fun x => x.2.ino),
      ∃ e ∈ insert_entries es0 (scanDirStep matched addChild j).1, e.ino = k) := by
  have hinos := scanChildren_inos matched addChild j.ino j.path j.relative_path
    j.ignoreOpt j.listing
  have hcov := scanChildren_covers matched addChild j.ino j.path j.relative_path
    j.ignoreOpt j.listing
  have hbatch : (scanDirStep matched addChild j).1
      = (scanChildren matched addChild j.ino j.path j.relative_path j.ignoreOpt
          j.listing).1
        ++ [Entry.Dir parent nm ei sy ig (j.listing.map (fun x => x.2.ino)) false] := by
    simp [scanDirStep, hj, Entry.withChildrenDone, hinos]
  refine ⟨?_, ?_, ?_⟩
  · rw [hbatch]
    exact List.mem_append_right _ (List.mem_singleton_self _)
  · intro k hk
    rw [← hinos] at hk
    obtain ⟨e, he, hek⟩ := hcov k hk
    exact ⟨e, hbatch ▸ List.mem_append_left _ he, hek⟩
  · intro es0 k hk
    rw [← hinos] at hk
    obtain ⟨e, he, hek⟩ := hcov k hk
    exact insert_entries_covers _ es0 k ⟨e, hbatch ▸ List.mem_append_left _ he, hek⟩

/-- Witness for C3: scanning a directory with one file child and one
subdirectory child produces the finalized parent plus both child entries,
all resolvable after the edit. -/
theorem scan_dir_single_atomic_batch_witness :
    Entry.Dir none "root" 1 false false [2, 3] false
        ∈ (scanDirStep (fun (_ : Unit) _ _ => false) (fun i _ => i)
            { ino := 1, path := ["r"], relative_path := ["root"],
              dir_entry := Entry.Dir none "root" 1 false false [] true,
              listing := [("a", FsNode.file 2 false), ("b", FsNode.dir 3 false [])],
              ignoreOpt := some () }).1 ∧
    (∀ k ∈ [2, 3],
      ∃ e ∈ insert_entries []
          (scanDirStep (fun (_ : Unit) _ _ => false) (fun i _ => i)
            { ino := 1, path := ["r"], relative_path := ["root"],
              dir_entry := Entry.Dir none "root" 1 false false [] true,
              listing := [("a", FsNode.file 2 false), ("b", FsNode.dir 3 false [])],
              ignoreOpt := some () }).1, e.ino = k) := by
  have h := scan_dir_single_atomic_batch
    (fun (_ : Unit) _ _ => false) (fun i _ => i)
    { ino := 1, path := ["r"], relative_path := ["root"],
      dir_entry := Entry.Dir none "root" 1 false false [] true,
      listing := [("a", FsNode.file 2 false), ("b", FsNode.dir 3 false [])],
      ignoreOpt := some () }
    none "root" 1 false false [] true rfl
  exact ⟨h.1, fun k hk => h.2.2 [] k hk⟩

/-- An entry respects the `.git` rule: a directory entry literally named
`.git` carries `is_ignored = true`. -/
def gitOk (e : Entry) : Prop :=
  e.isDir = true → e.name = ".git" → e.is_ignored = true

theorem withChildrenDone_gitOk (e : Entry) (cs : List Nat) (h : gitOk e) :
    gitOk (e.withChildrenDone cs) := by
  cases e with
  | Dir p n i sy ig c pe =>
    intro hd hn
    exact h hd hn
  | File p n pa i sy ig => exact h

theorem scanChildren_gitOk {Ig : Type} (m : Ig → List String → Bool → Bool)
    (ac : Ig → List String → Ig) (jino : Nat) (jpath jrel : List String)
    (igOpt : Option Ig) (listing : List (String × FsNode)) :
    (∀ e ∈ (scanChildren m ac jino jpath jrel igOpt listing).1, gitOk e) ∧
    (∀ jb ∈ (scanChildren m ac jino jpath jrel igOpt listing).2.1,
      gitOk jb.dir_entry) := by
  induction listing with
  | nil => exact ⟨fun e he => by simp [scanChildren] at he,
                  fun jb hjb => by simp [scanChildren] at hjb⟩
  | cons hd rest ih =>
    obtain ⟨name, child⟩ := hd
    cases child with
    | file fino fsym =>
      refine ⟨fun e he => ?_, fun jb hjb => ?_⟩
      · simp only [scanChildren, List.mem_cons] at he
        rcases he with rfl | he
        · intro hd _; simp [Entry.isDir] at hd
        · exact ih.1 e he
      · simp only [scanChildren] at hjb
        exact ih.2 jb hjb
    | dir cino csym lst =>
      have hgit : gitOk (Entry.Dir (some jino) name cino csym
          (match igOpt with
           | none => (true, (none : Option Ig))
           | some parent_ig =>
             let child_ig := ac parent_ig (jpath ++ [name])
             let isIg := m child_ig (jpath ++ [name]) true || name == ".git"
             (isIg, if isIg then none else some child_ig)).1 [] true) := by
        intro _ hn
        simp only [Entry.name] at hn
        cases igOpt with
        | none => rfl
        | some parent_ig =>
          simp only [Entry.is_ignored]
          rw [hn]
          simp
      refine ⟨fun e he => ?_, fun jb hjb => ?_⟩
      · simp only [scanChildren, List.mem_cons] at he
        rcases he with rfl | he
        · exact hgit
        · exact ih.1 e he
      · simp only [scanChildren, List.mem_cons] at hjb
        rcases hjb with rfl | hjb
        · exact hgit
        · exact ih.2 jb hjb

theorem scanRec_gitOk {Ig : Type} (m : Ig → List String → Bool → Bool)
    (ac : Ig → List String → Ig) (fuel : Nat) (q : List (MScanJob Ig))
    (hq : ∀ j ∈ q, gitOk j.dir_entry) :
    ∀ e ∈ scanRec m ac fuel q, gitOk e := by
  induction fuel generalizing q with
  | zero =>
    intro e he
    cases q with
    | nil => simp [scanRec] at he
    | cons j rest => simp [scanRec] at he
  | succ fuel ih =>
    intro e he
    cases q with
    | nil => simp [scanRec] at he
    | cons j rest =>
      simp only [scanRec, List.mem_append] at he
      have hsc := scanChildren_gitOk m ac j.ino j.path j.relative_path
        j.ignoreOpt j.listing
      rcases he with he | he
      · simp only [scanDirStep, List.mem_append] at he
        rcases he with he | he
        · exact hsc.1 e he
        · rcases List.mem_singleton.mp he with rfl
          exact withChildrenDone_gitOk _ _ (hq j (List.mem_cons_self _ _))
      · refine ih (rest ++ (scanDirStep m ac j).2) ?_ e he
        intro j' hj'
        rcases List.mem_append.mp hj' with hj' | hj'
        · exact hq j' (List.mem_cons_of_mem _ hj')
        · exact hsc.2 j' hj'

/-- C5: every directory entry recorded by the scan whose literal name is
`.git` — at any depth, the root included — has `is_ignored = true`, no
matter what the ignore matcher says. -/
theorem git_dirs_always_ignored {Ig : Type}
    (matched : Ig → List String → Bool → Bool) (addChild : Ig → List String → Ig)
    (ig0 : Ig) (rootAbs : List String) (rootName : String) (root : FsNode)
    (fuel : Nat) :
    ∀ e ∈ scan_dirs matched addChild ig0 rootAbs rootName root fuel,
      e.isDir = true → e.name = ".git" → e.is_ignored = true := by
  cases root with
  | file ino sym =>
    intro e he hd
    simp only [scan_dirs, List.mem_singleton] at he
    subst he
    simp [Entry.isDir] at hd
  | dir ino sym listing =>
    intro e he
    have hroot : gitOk (Entry.Dir none rootName ino sym
        (matched ig0 rootAbs true || rootName == ".git") [] true) := by
      intro _ hn
      simp only [Entry.name] at hn
      simp only [Entry.is_ignored]
      rw [hn]
      simp
    simp only [scan_dirs, List.mem_cons] at he
    rcases he with rfl | he
    · exact hroot
    · exact scanRec_gitOk matched addChild fuel _
        (fun j hj => by rcases List.mem_singleton.mp hj with rfl; exact hroot) e he

/-- Witness for C5: in a scan of a tree containing a `.git` directory
(with the matcher ignoring nothing), the recorded `.git` entry is
ignored. -/
theorem git_dirs_always_ignored_witness :
    Entry.Dir (some 1) ".git" 3 false true [] true
        ∈ scan_dirs (fun (_ : Unit) _ _ => false) (fun i _ => i) ()
            ["tmp", "root"] "root"
            (FsNode.dir 1 false
              [("a", FsNode.file 2 false),
               (".git", FsNode.dir 3 false [("cfg", FsNode.file 4 false)])]) 10 ∧
    (Entry.Dir (some 1) ".git" 3 false true [] true).is_ignored = true :=
  ⟨by decide,
   git_dirs_always_ignored (fun (_ : Unit) _ _ => false) (fun i _ => i) ()
     ["tmp", "root"] "root"
     (FsNode.dir 1 false
       [("a", FsNode.file 2 false),
        (".git", FsNode.dir 3 false [("cfg", FsNode.file 4 false)])]) 10
     _ (by decide) rfl rfl⟩

theorem withChildrenDone_is_ignored (e : Entry) (cs : List Nat) :
    (e.withChildrenDone cs).is_ignored = e.is_ignored := by
  cases e <;> rfl

theorem scanChildren_dir_child {Ig : Type} (m : Ig → List String → Bool → Bool)
    (ac : Ig → List String → Ig) (jino : Nat) (jpath jrel : List String)
    (igOpt : Option Ig) (listing : List (String × FsNode))
    (name : String) (cino : Nat) (csym : Bool) (lst : List (String × FsNode))
    (hmem : (name, FsNode.dir cino csym lst) ∈ listing) :
    (∃ e ∈ (scanChildren m ac jino jpath jrel igOpt listing).1,
      e.ino = cino ∧ e.isDir = true) ∧
    (∃ jb ∈ (scanChildren m ac jino jpath jrel igOpt listing).2.1,
      jb.ino = cino) := by
  induction listing with
  | nil => simp at hmem
  | cons hd rest ih =>
    obtain ⟨nm, child⟩ := hd
    rcases List.mem_cons.mp hmem with heq | hmem'
    · obtain ⟨h1, h2⟩ := Prod.mk.injEq .. ▸ heq
      cases h1
      cases h2
      constructor
      · exact ⟨_, List.mem_cons_self _ _, rfl, rfl⟩
      · exact ⟨_, List.mem_cons_self _ _, rfl⟩
    · have ihr := ih hmem'
      cases child with
      | file fino fsym =>
        refine ⟨?_, ?_⟩
        · obtain ⟨e, he, hp⟩ := ihr.1
          exact ⟨e, List.mem_cons_of_mem _ he, hp⟩
        · obtain ⟨jb, hjb, hp⟩ := ihr.2
          exact ⟨jb, by simpa [scanChildren] using hjb, hp⟩
      | dir c2 s2 l2 =>
        refine ⟨?_, ?_⟩
        · obtain ⟨e, he, hp⟩ := ihr.1
          exact ⟨e, List.mem_cons_of_mem _ he, hp⟩
        · obtain ⟨jb, hjb, hp⟩ := ihr.2
          exact ⟨jb, List.mem_cons_of_mem _ hjb, hp⟩

theorem scanChildren_ignored_job_no_matcher {Ig : Type}
    (m : Ig → List String → Bool → Bool) (ac : Ig → List String → Ig)
    (jino : Nat) (jpath jrel : List String) (igOpt : Option Ig)
    (listing : List (String × FsNode)) :
    ∀ jb ∈ (scanChildren m ac jino jpath jrel igOpt listing).2.1,
      jb.dir_entry.is_ignored = true → jb.ignoreOpt = none := by
  induction listing with
  | nil => intro jb hjb; simp [scanChildren] at hjb
  | cons hd rest ih =>
    obtain ⟨name, child⟩ := hd
    intro jb hjb hig
    cases child with
    | file fino fsym =>
      simp only [scanChildren] at hjb
      exact ih jb hjb hig
    | dir cino csym lst =>
      simp only [scanChildren, List.mem_cons] at hjb
      rcases hjb with rfl | hjb
      · simp only [Entry.is_ignored] at hig
        cases igOpt with
        | none => rfl
        | some parent_ig =>
          simp only at hig ⊢
          rw [if_pos hig]
      · exact ih jb hjb hig

theorem scanChildren_no_matcher_all_ignored {Ig : Type}
    (m : Ig → List String → Bool → Bool) (ac : Ig → List String → Ig)
    (jino : Nat) (jpath jrel : List String) (listing : List (String × FsNode)) :
    (∀ e ∈ (scanChildren m ac jino jpath jrel none listing).1,
      e.is_ignored = true) ∧
    (∀ jb ∈ (scanChildren m ac jino jpath jrel none listing).2.1,
      jb.ignoreOpt = none ∧ jb.dir_entry.is_ignored = true) := by
  induction listing with
  | nil => exact ⟨fun e he => by simp [scanChildren] at he,
                  fun jb hjb => by simp [scanChildren] at hjb⟩
  | cons hd rest ih =>
    obtain ⟨name, child⟩ := hd
    cases child with
    | file fino fsym =>
      refine ⟨fun e he => ?_, fun jb hjb => ?_⟩
      · simp only [scanChildren, List.mem_cons] at he
        rcases he with rfl | he
        · rfl
        · exact ih.1 e he
      · simp only [scanChildren] at hjb
        exact ih.2 jb hjb
    | dir cino csym lst =>
      refine ⟨fun e he => ?_, fun jb hjb => ?_⟩
      · simp only [scanChildren, List.mem_cons] at he
        rcases he with rfl | he
        · rfl
        · exact ih.1 e he
      · simp only [scanChildren, List.mem_cons] at hjb
        rcases hjb with rfl | hjb
        · exact ⟨rfl, rfl⟩
        · exact ih.2 jb hjb

theorem scanRec_no_matcher_all_ignored {Ig : Type}
    (m : Ig → List String → Bool → Bool) (ac : Ig → List String → Ig)
    (fuel : Nat) (q : List (MScanJob Ig))
    (hq : ∀ j ∈ q, j.ignoreOpt = none ∧ j.dir_entry.is_ignored = true) :
    ∀ e ∈ scanRec m ac fuel q, e.is_ignored = true := by
  induction fuel generalizing q with
  | zero =>
    intro e he
    cases q with
    | nil => simp [scanRec] at he
    | cons j rest => simp [scanRec] at he
  | succ fuel ih =>
    intro e he
    cases q with
    | nil => simp [scanRec] at he
    | cons j rest =>
      obtain ⟨hj_none, hj_ig⟩ := hq j (List.mem_cons_self _ _)
      have hsc := scanChildren_no_matcher_all_ignored m ac j.ino j.path
        j.relative_path j.listing
      simp only [scanRec, List.mem_append] at he
      rcases he with he | he
      · simp only [scanDirStep, hj_none, List.mem_append] at he
        rcases he with he | he
        · exact hsc.1 e he
        · rcases List.mem_singleton.mp he with rfl
          rw [withChildrenDone_is_ignored]
          exact hj_ig
      · refine ih (rest ++ (scanDirStep m ac j).2) ?_ e he
        intro j' hj'
        rcases List.mem_append.mp hj' with hj' | hj'
        · exact hq j' (List.mem_cons_of_mem _ hj')
        · simp only [scanDirStep, hj_none] at hj'
          exact hsc.2 j' hj'

/-- C6: an ignored directory is treated like any other directory except for
its flag: (i) every directory child found during a scan — ignored or not —
gets its entry recorded in the submitted batch and a scan job enqueued for
it, so the scanner descends into it; (ii) a child directory whose entry is
marked ignored gets a job carrying no ignore matcher; and (iii) processing
any queue of such matcher-less jobs for ignored directories records every
entry created beneath them with `is_ignored = true`. -/
theorem ignored_dirs_recorded_descended_children_ignored {Ig : Type}
    (matched : Ig → List String → Bool → Bool) (addChild : Ig → List String → Ig) :
    (∀ (j : MScanJob Ig) (name : String) (cino : Nat) (csym : Bool)
        (lst : List (String × FsNode)),
      (name, FsNode.dir cino csym lst) ∈ j.listing →
        (∃ e ∈ (scanDirStep matched addChild j).1, e.ino = cino ∧ e.isDir = true) ∧
        (∃ jb ∈ (scanDirStep matched addChild j).2, jb.ino = cino)) ∧
    (∀ (j : MScanJob Ig), ∀ jb ∈ (scanDirStep matched addChild j).2,
      jb.dir_entry.is_ignored = true → jb.ignoreOpt = none) ∧
    (∀ (fuel : Nat) (q : List (MScanJob Ig)),
      (∀ j ∈ q, j.ignoreOpt = none ∧ j.dir_entry.is_ignored = true) →
      ∀ e ∈ scanRec matched addChild fuel q, e.is_ignored = true) := by
  refine ⟨fun j name cino csym lst hmem => ?_, fun j jb hjb hig => ?_,
    scanRec_no_matcher_all_ignored matched addChild⟩
  · have h := scanChildren_dir_child matched addChild j.ino j.path j.relative_path
      j.ignoreOpt j.listing name cino csym lst hmem
    refine ⟨?_, ?_⟩
    · obtain ⟨e, he, hp⟩ := h.1
      exact ⟨e, by simp only [scanDirStep]; exact List.mem_append_left _ he, hp⟩
    · obtain ⟨jb, hjb, hp⟩ := h.2
      exact ⟨jb, hjb, hp⟩
  · exact scanChildren_ignored_job_no_matcher matched addChild j.ino j.path
      j.relative_path j.ignoreOpt j.listing jb hjb hig

/-- Witness for C6: a file created under an ignored directory's
matcher-less scan job is itself marked ignored. -/
theorem ignored_dirs_witness :
    (∀ j ∈ [({ ino := 1, path := ["r", "d"], relative_path := ["r", "d"],
               dir_entry := Entry.Dir (some 0) "d" 1 false true [] true,
               listing := [("f", FsNode.file 2 false)],
               ignoreOpt := none } : MScanJob Unit)],
      j.ignoreOpt = none ∧ j.dir_entry.is_ignored = true) ∧
    Entry.File (some 1) "f" ["r", "d", "f"] 2 false true
        ∈ scanRec (fun (_ : Unit) _ _ => false) (fun i _ => i) 5
            [{ ino := 1, path := ["r", "d"], relative_path := ["r", "d"],
               dir_entry := Entry.Dir (some 0) "d" 1 false true [] true,
               listing := [("f", FsNode.file 2 false)],
               ignoreOpt := none }] ∧
    (Entry.File (some 1) "f" ["r", "d", "f"] 2 false true).is_ignored = true := by
  refine ⟨by decide, by decide, ?_⟩
  exact (ignored_dirs_recorded_descended_children_ignored
      (fun (_ : Unit) _ _ => false) (fun i _ => i)).2.2 5
    [{ ino := 1, path := ["r", "d"], relative_path := ["r", "d"],
       dir_entry := Entry.Dir (some 0) "d" 1 false true [] true,
       listing := [("f", FsNode.file 2 false)],
       ignoreOpt := none }] (by decide) _ (by decide)

theorem entryGet_mem {es : List Entry} {ino : Nat} {e : Entry}
    (h : entryGet es ino = some e) : e ∈ es ∧ e.ino = ino :=
  ⟨List.mem_of_find?_eq_some h, by simpa using List.find?_some h⟩

theorem entryGet_of_mem {es : List Entry}
    (hu : es.Pairwise (fun a b => a.ino ≠ b.ino)) {e : Entry} (he : e ∈ es) :
    entryGet es e.ino = some e := by
  induction es with
  | nil => simp at he
  | cons a t ih =>
    rcases List.mem_cons.mp he with rfl | he'
    · exact List.find?_cons_of_pos _ (by simp)
    · have hne : a.ino ≠ e.ino := (List.pairwise_cons.mp hu).1 e he'
      rw [entryGet, List.find?_cons_of_neg _ (by simpa using hne)]
      exact ih (List.pairwise_cons.mp hu).2 he'

theorem same_ino_eq {es : List Entry}
    (hu : es.Pairwise (fun a b => a.ino ≠ b.ino)) {a b : Entry}
    (ha : a ∈ es) (hb : b ∈ es) (h : a.ino = b.ino) : a = b := by
  have h1 := entryGet_of_mem hu ha
  have h2 := entryGet_of_mem hu hb
  rw [h, h2] at h1
  exact (Option.some.inj h1).symm

/-- A parent-link chain, leaf first: the walk from the head entry upward
follows the tail and ends at an entry with no parent. -/
inductive AncChain : List Entry → Prop where
  | root (e : Entry) : e.parent = none → AncChain [e]
  | step (e f : Entry) (rest : List Entry) :
      e.parent = some f.ino → AncChain (f :: rest) → AncChain (e :: f :: rest)

theorem ancChain_elem {ch : List Entry} (h : AncChain ch) :
    ∀ e ∈ ch, e.parent = none ∨
      ∃ pre f post, ch = pre ++ e :: f :: post ∧ e.parent = some f.ino := by
  induction h with
  | root a ha =>
    intro e he
    rcases List.mem_singleton.mp he with rfl
    exact Or.inl ha
  | step a f rest hp hc ih =>
    intro e he
    rcases List.mem_cons.mp he with rfl | he'
    · exact Or.inr ⟨[], f, rest, rfl, hp⟩
    · rcases ih e he' with h0 | ⟨pre, g, post, heq, hep⟩
      · exact Or.inl h0
      · exact Or.inr ⟨a :: pre, g, post, by rw [List.cons_append, ← heq], hep⟩

theorem ancChain_nodup {es : List Entry}
    (hu : es.Pairwise (fun a b => a.ino ≠ b.ino)) {ch : List Entry}
    (h : AncChain ch) : (∀ x ∈ ch, x ∈ es) → ch.Nodup := by
  induction h with
  | root a ha => intro _; simp
  | step a f rest hp hc ih =>
    intro hsub
    have hnd : (f :: rest).Nodup :=
      ih (fun x hx => hsub x (List.mem_cons_of_mem _ hx))
    refine List.nodup_cons.mpr ⟨?_, hnd⟩
    intro hmem
    rcases ancChain_elem hc a hmem with h0 | ⟨pre, g, post, heq, hep⟩
    · rw [h0] at hp; cases hp
    · have hgf : g = f := by
        have hg_mem : g ∈ f :: rest := by
          rw [heq]
          exact List.mem_append_right _
            (List.mem_cons_of_mem _ (List.mem_cons_self _ _))
        refine same_ino_eq hu
          (hsub g (List.mem_cons_of_mem _ hg_mem))
          (hsub f (List.mem_cons_of_mem _ (List.mem_cons_self _ _))) ?_
        have := hep.symm.trans hp
        exact Option.some.inj this
      rw [hgf] at heq
      cases pre with
      | nil =>
        rw [List.nil_append] at heq
        injection heq with h1 h2
        exact (List.nodup_cons.mp hnd).1 (h2 ▸ List.mem_cons_self _ _)
      | cons p0 pre' =>
        rw [List.cons_append] at heq
        injection heq with h1 h2
        have hf_rest : f ∈ rest := by
          rw [h2]
          exact List.mem_append_right _
            (List.mem_cons_of_mem _ (List.mem_cons_self _ _))
        exact (List.nodup_cons.mp hnd).1 hf_rest

theorem ancChain_walk {es : List Entry}
    (hu : es.Pairwise (fun a b => a.ino ≠ b.ino)) {ch : List Entry}
    (h : AncChain ch) :
    (∀ x ∈ ch, x ∈ es) → ∀ e tl, ch = e :: tl → ∀ fuel acc, tl.length ≤ fuel →
      walkParents es fuel e acc
        = PathResult.ok (ch.reverse.map Entry.name ++ acc) := by
  induction h with
  | root a ha =>
    intro _ e tl heq fuel acc _
    injection heq with h1 h2
    subst h1
    subst h2
    cases fuel <;> simp [walkParents, ha]
  | step a f rest hp hc ih =>
    intro hsub e tl heq fuel acc hf
    injection heq with h1 h2
    subst h1
    subst h2
    cases fuel with
    | zero => simp at hf
    | succ fuel' =>
      have hget : entryGet es f.ino = some f :=
        entryGet_of_mem hu
          (hsub f (List.mem_cons_of_mem _ (List.mem_cons_self _ _)))
      have hstep : walkParents es (fuel' + 1) a acc
          = walkParents es fuel' f (a.name :: acc) := by
        simp [walkParents, hp, hget]
      have hrec := ih (fun x hx => hsub x (List.mem_cons_of_mem _ hx)) f rest rfl
        fuel' (a.name :: acc) (Nat.succ_le_succ_iff.mp hf)
      rw [hstep, hrec]
      simp

/-- A descent chain: starting at `base`, following for each component of
`p` a child entry whose recorded parent is the previous entry's inode and
whose name is the component, visits the entries of `ch` in order. -/
inductive PChain (es : List Entry) : Entry → List String → List Entry → Prop where
  | nil (base : Entry) : PChain es base [] []
  | cons (base e : Entry) (c : String) (p : List String) (ch : List Entry) :
      e ∈ es → e.parent = some base.ino → e.name = c →
      PChain es e p ch → PChain es base (c :: p) (e :: ch)

theorem pchain_names {es : List Entry} {b : Entry} {p : List String}
    {ch : List Entry} (h : PChain es b p ch) : ch.map Entry.name = p := by
  induction h with
  | nil base => rfl
  | cons base e c p' ch' hmem hpar hname hch ih => simp [ih, hname]

theorem pchain_sub {es : List Entry} {b : Entry} {p : List String}
    {ch : List Entry} (h : PChain es b p ch) : ∀ x ∈ ch, x ∈ es := by
  induction h with
  | nil base => intro x hx; simp at hx
  | cons base e c p' ch' hmem hpar hname hch ih =>
    intro x hx
    rcases List.mem_cons.mp hx with rfl | hx'
    · exact hmem
    · exact ih x hx'

theorem pchain_length {es : List Entry} {b : Entry} {p : List String}
    {ch : List Entry} (h : PChain es b p ch) : ch.length = p.length := by
  induction h with
  | nil base => rfl
  | cons base e c p' ch' hmem hpar hname hch ih => simp [ih]

theorem pchain_anc {es : List Entry} {b : Entry} {p : List String}
    {ch : List Entry} (h : PChain es b p ch) :
    ∀ pre, AncChain (b :: pre) → AncChain (ch.reverse ++ b :: pre) := by
  induction h with
  | nil base => intro pre hp; simpa using hp
  | cons base e c p' ch' hmem hpar hname hch ih =>
    intro pre hp
    have hstep : AncChain (e :: base :: pre) := AncChain.step e base pre hpar hp
    have := ih (base :: pre) hstep
    simpa [List.append_assoc] using this

theorem descent_chain {es : List Entry}
    (hcp : ∀ e ∈ es, ∀ c ∈ e.childrenL,
      (entryGet es c).map Entry.parent = some (some e.ino)) :
    ∀ (p : List String) (i0 : Nat) (e0 : Entry) (i : Nat),
      entryGet es i0 = some e0 → inodeForPathGo es i0 p = some i →
      ∃ ch elast tl2, PChain es e0 p ch ∧ entryGet es i = some elast ∧
        (e0 :: ch).reverse = elast :: tl2 := by
  intro p
  induction p with
  | nil =>
    intro i0 e0 i hget hpath
    simp only [inodeForPathGo] at hpath
    injection hpath with h
    subst h
    exact ⟨[], e0, [], PChain.nil e0, hget, rfl⟩
  | cons c rest ih =>
    intro i0 e0 i hget hpath
    rw [inodeForPathGo, hget] at hpath
    cases e0 with
    | File pa nm pth ino sy ig => cases hpath
    | Dir pa nm ino sy ig children pend =>
      dsimp only at hpath
      cases hfind : children.find?
          (fun child => (entryGet es child).map Entry.name == some c) with
      | none => rw [hfind] at hpath; cases hpath
      | some child =>
        rw [hfind] at hpath
        have hpred := List.find?_some hfind
        have hcmem := List.mem_of_find?_eq_some hfind
        rw [beq_iff_eq] at hpred
        obtain ⟨e1, hget1, hname1⟩ := Option.map_eq_some'.mp hpred
        have he0 := entryGet_mem hget
        have hpar := hcp _ he0.1 child (by simpa [Entry.childrenL] using hcmem)
        rw [hget1] at hpar
        simp only [Option.map_some'] at hpar
        have hpar1 : e1.parent = some (Entry.Dir pa nm ino sy ig children pend).ino :=
          Option.some.inj hpar
        obtain ⟨ch', elast, tl2', hpc, hgetl, hrev⟩ := ih child e1 i hget1 hpath
        refine ⟨e1 :: ch', elast, tl2' ++ [Entry.Dir pa nm ino sy ig children pend],
          PChain.cons _ e1 c rest ch' (entryGet_mem hget1).1 hpar1 hname1 hpc,
          hgetl, ?_⟩
        have : (Entry.Dir pa nm ino sy ig children pend :: e1 :: ch').reverse
            = (e1 :: ch').reverse ++ [Entry.Dir pa nm ino sy ig children pend] := by
          simp
        rw [this, hrev]
        rfl

/-- The invariants every published snapshot maintains (spec §3
invariants 1–3), which the round-trip claim quantifies over: inode keys
are unique, each inode in a directory's `children` resolves to an entry
whose `parent` is that directory, and the root inode resolves to an entry
with no parent. -/
structure WFS (s : Snapshot) : Prop where
  uniq : s.entries.Pairwise (fun a b => a.ino ≠ b.ino)
  childParent : ∀ e ∈ s.entries, ∀ c ∈ e.childrenL,
    (entryGet s.entries c).map Entry.parent = some (some e.ino)
  rootParent : ∀ r, s.root_inode = some r →
    (entryGet s.entries r).map Entry.parent = some none

/-- C1: on a snapshot satisfying the published-snapshot invariants, every
valid relative path `p` (no `".."` components) that resolves through
`inode_for_path` is reproduced exactly by `path_for_inode` of the resolved
inode with `include_root = false`. -/
theorem inode_for_path_path_for_inode_roundtrip
    (s : Snapshot) (p : List String) (i : Nat) (hwf : WFS s)
    (_hdd : ".." ∉ p) (h : inode_for_path s p = some i) :
    path_for_inode s i false = PathResult.ok p := by
  unfold inode_for_path at h
  cases hr : s.root_inode with
  | none => rw [hr] at h; cases h
  | some r =>
    rw [hr] at h
    dsimp only [Option.bind] at h
    obtain ⟨e0, hget0, hpar0⟩ := Option.map_eq_some'.mp (hwf.rootParent r hr)
    obtain ⟨ch, elast, tl2, hpc, hgetl, hrev⟩ :=
      descent_chain hwf.childParent p r e0 i hget0 h
    have hanc : AncChain ((e0 :: ch).reverse) := by
      have := pchain_anc hpc [] (AncChain.root e0 hpar0)
      simpa [List.reverse_cons] using this
    have hsub : ∀ x ∈ (e0 :: ch).reverse, x ∈ s.entries := by
      intro x hx
      rw [List.mem_reverse] at hx
      rcases List.mem_cons.mp hx with rfl | hx'
      · exact (entryGet_mem hget0).1
      · exact pchain_sub hpc x hx'
    have hnd : ((e0 :: ch).reverse).Nodup := ancChain_nodup hwf.uniq hanc hsub
    have hlen : ((e0 :: ch).reverse).length ≤ s.entries.length :=
      (List.Nodup.subperm hnd hsub).length_le
    have hlen2 : tl2.length ≤ s.entries.length := by
      have h1 : ((e0 :: ch).reverse).length = tl2.length + 1 := by
        rw [hrev]
        simp
      omega
    have hwalk := ancChain_walk hwf.uniq hanc hsub elast tl2 hrev
      s.entries.length [] hlen2
    rw [List.reverse_reverse] at hwalk
    have hnames : (e0 :: ch).map Entry.name = e0.name :: p := by
      simp [pchain_names hpc]
    rw [hnames, List.append_nil] at hwalk
    unfold path_for_inode
    rw [hgetl]
    dsimp only
    rw [hwalk]
    simp

/-- Witness for C1: in a well-formed two-level snapshot the path
`["b", "c"]` resolves to inode 4 and is reproduced by `path_for_inode`. -/
theorem inode_for_path_path_for_inode_roundtrip_witness :
    (".." ∉ [("b" : String), "c"]) ∧
    inode_for_path
        { id := 0, path := ["tmp", "root"], root_inode := some 1,
          entries := [Entry.Dir none "root" 1 false false [2, 3] false,
                      Entry.File (some 1) "a" ["root", "a"] 2 false false,
                      Entry.Dir (some 1) "b" 3 false false [4] false,
                      Entry.File (some 3) "c" ["root", "b", "c"] 4 false false] }
        ["b", "c"] = some 4 ∧
    path_for_inode
        { id := 0, path := ["tmp", "root"], root_inode := some 1,
          entries := [Entry.Dir none "root" 1 false false [2, 3] false,
                      Entry.File (some 1) "a" ["root", "a"] 2 false false,
                      Entry.Dir (some 1) "b" 3 false false [4] false,
                      Entry.File (some 3) "c" ["root", "b", "c"] 4 false false] }
        4 false = PathResult.ok ["b", "c"] :=
  ⟨by decide, by decide,
   inode_for_path_path_for_inode_roundtrip _ ["b", "c"] 4
     ⟨by decide, by decide,
      fun r hr => by
        rw [Option.some.injEq] at hr
        subst hr
        decide⟩
     (by decide) (by decide)⟩

/-- C9 counterexample: in a snapshot where inode 1's parent link names the
absent inode 99, `path_for_inode` panics (it hits the `unwrap()` on the
parent lookup) and does not return an error value. -/
theorem path_for_inode_broken_chain_panics :
    path_for_inode
        { id := 0, path := ["r"], root_inode := some 1,
          entries := [Entry.File (some 99) "a" ["a"] 1 false false] } 1 false
      = PathResult.panicked ∧
    path_for_inode
        { id := 0, path := ["r"], root_inode := some 1,
          entries := [Entry.File (some 99) "a" ["a"] 1 false false] } 1 false
      ≠ PathResult.err :=
  ⟨by decide, by decide⟩

/-- A parent-link chain, leaf first, whose last entry's parent link names
an inode absent from `es`: the walk from the head entry upward follows
the tail and then hits the broken link. The break may sit at any depth of
the ancestor chain, the immediate parent included. -/
inductive BrokenChain (es : List Entry) : List Entry → Prop where
  | broken (e : Entry) (q : Nat) :
      e.parent = some q → entryGet es q = none → BrokenChain es [e]
  | step (e f : Entry) (rest : List Entry) :
      e.parent = some f.ino → BrokenChain es (f :: rest) →
      BrokenChain es (e :: f :: rest)

theorem brokenChain_elem {es : List Entry} {ch : List Entry}
    (h : BrokenChain es ch) :
    ∀ e ∈ ch, (∃ q, e.parent = some q ∧ entryGet es q = none) ∨
      ∃ pre f post, ch = pre ++ e :: f :: post ∧ e.parent = some f.ino := by
  induction h with
  | broken a q hq hnone =>
    intro e he
    rcases List.mem_singleton.mp he with rfl
    exact Or.inl ⟨q, hq, hnone⟩
  | step a f rest hp hc ih =>
    intro e he
    rcases List.mem_cons.mp he with rfl | he'
    · exact Or.inr ⟨[], f, rest, rfl, hp⟩
    · rcases ih e he' with h0 | ⟨pre, g, post, heq, hep⟩
      · exact Or.inl h0
      · exact Or.inr ⟨a :: pre, g, post, by rw [List.cons_append, ← heq], hep⟩

theorem brokenChain_nodup {es : List Entry}
    (hu : es.Pairwise (fun a b => a.ino ≠ b.ino)) {ch : List Entry}
    (h : BrokenChain es ch) : (∀ x ∈ ch, x ∈ es) → ch.Nodup := by
  induction h with
  | broken a q hq hnone => intro _; simp
  | step a f rest hp hc ih =>
    intro hsub
    have hnd : (f :: rest).Nodup :=
      ih (fun x hx => hsub x (List.mem_cons_of_mem _ hx))
    refine List.nodup_cons.mpr ⟨?_, hnd⟩
    intro hmem
    rcases brokenChain_elem hc a hmem with ⟨q, hq, hnone⟩ | ⟨pre, g, post, heq, hep⟩
    · rw [hp] at hq
      rw [← Option.some.inj hq] at hnone
      rw [entryGet_of_mem hu
        (hsub f (List.mem_cons_of_mem _ (List.mem_cons_self _ _)))] at hnone
      cases hnone
    · have hgf : g = f := by
        have hg_mem : g ∈ f :: rest := by
          rw [heq]
          exact List.mem_append_right _
            (List.mem_cons_of_mem _ (List.mem_cons_self _ _))
        refine same_ino_eq hu
          (hsub g (List.mem_cons_of_mem _ hg_mem))
          (hsub f (List.mem_cons_of_mem _ (List.mem_cons_self _ _))) ?_
        exact Option.some.inj (hep.symm.trans hp)
      rw [hgf] at heq
      cases pre with
      | nil =>
        rw [List.nil_append] at heq
        injection heq with h1 h2
        exact (List.nodup_cons.mp hnd).1 (h2 ▸ List.mem_cons_self _ _)
      | cons p0 pre' =>
        rw [List.cons_append] at heq
        injection heq with h1 h2
        have hf_rest : f ∈ rest := by
          rw [h2]
          exact List.mem_append_right _
            (List.mem_cons_of_mem _ (List.mem_cons_self _ _))
        exact (List.nodup_cons.mp hnd).1 hf_rest

theorem brokenChain_walk {es : List Entry}
    (hu : es.Pairwise (fun a b => a.ino ≠ b.ino)) {ch : List Entry}
    (h : BrokenChain es ch) :
    (∀ x ∈ ch, x ∈ es) → ∀ e tl, ch = e :: tl → ∀ fuel acc,
      tl.length + 1 ≤ fuel → walkParents es fuel e acc = PathResult.panicked := by
  induction h with
  | broken a q hq hnone =>
    intro _ e tl heq fuel acc hf
    injection heq with h1 h2
    subst h1
    subst h2
    cases fuel with
    | zero => simp at hf
    | succ fuel' => simp [walkParents, hq, hnone]
  | step a f rest hp hc ih =>
    intro hsub e tl heq fuel acc hf
    injection heq with h1 h2
    subst h1
    subst h2
    cases fuel with
    | zero => simp at hf
    | succ fuel' =>
      have hget : entryGet es f.ino = some f :=
        entryGet_of_mem hu
          (hsub f (List.mem_cons_of_mem _ (List.mem_cons_self _ _)))
      have hstep : walkParents es (fuel' + 1) a acc
          = walkParents es fuel' f (a.name :: acc) := by
        simp [walkParents, hp, hget]
      rw [hstep]
      exact ih (fun x hx => hsub x (List.mem_cons_of_mem _ hx)) f rest rfl
        fuel' (a.name :: acc)
        (by simp only [List.length_cons] at hf; omega)

/-- C9 as amended: `path_for_inode` returns an error when the inode is not
present in the snapshot. When the inode is present but some parent link
anywhere in its ancestor chain names an absent inode, the walk panics on
`unwrap` rather than returning an error; when the ancestor chain resolves
all the way to a parentless root, the function (for either value of
`include_root`) returns the path obtained by walking parent links,
pushing names and reversing, dropping the root name when
`include_root = false`. -/
theorem path_for_inode_error_semantics :
    (∀ (s : Snapshot) (ino : Nat) (ir : Bool),
      entryGet s.entries ino = none → path_for_inode s ino ir = PathResult.err) ∧
    (∀ (s : Snapshot) (ino : Nat) (ir : Bool) (e : Entry) (tl : List Entry),
      s.entries.Pairwise (fun a b => a.ino ≠ b.ino) →
      entryGet s.entries ino = some e →
      BrokenChain s.entries (e :: tl) → (∀ x ∈ e :: tl, x ∈ s.entries) →
      path_for_inode s ino ir = PathResult.panicked) ∧
    (∀ (s : Snapshot) (i : Nat) (ir : Bool) (elast : Entry) (tl : List Entry),
      s.entries.Pairwise (fun a b => a.ino ≠ b.ino) →
      entryGet s.entries i = some elast →
      AncChain (elast :: tl) → (∀ x ∈ elast :: tl, x ∈ s.entries) →
      path_for_inode s i ir
        = PathResult.ok
            (if ir then (elast :: tl).reverse.map Entry.name
             else ((elast :: tl).reverse.map Entry.name).drop 1)) := by
  refine ⟨fun s ino ir h => by simp [path_for_inode, h], ?_, ?_⟩
  · intro s ino ir e tl hu hget hbr hsub
    have hnd := brokenChain_nodup hu hbr hsub
    have hlen : tl.length + 1 ≤ s.entries.length := by
      have hle := (List.Nodup.subperm hnd hsub).length_le
      simpa using hle
    have hw := brokenChain_walk hu hbr hsub e tl rfl s.entries.length [] hlen
    unfold path_for_inode
    rw [hget]
    dsimp only
    rw [hw]
  · intro s i ir elast tl hu hget hanc hsub
    have hnd := ancChain_nodup hu hanc hsub
    have hlen : tl.length ≤ s.entries.length := by
      have hle := (List.Nodup.subperm hnd hsub).length_le
      simp only [List.length_cons] at hle
      omega
    have hwalk := ancChain_walk hu hanc hsub elast tl rfl
      s.entries.length [] hlen
    unfold path_for_inode
    rw [hget]
    dsimp only
    rw [hwalk]
    cases ir <;> simp

/-- Witness for C9's amended statement: an inode never indexed yields the
error return, and a chain broken one level above the immediate parent (a
missing grandparent) panics. -/
theorem path_for_inode_error_semantics_witness :
    path_for_inode { id := 0, path := [], root_inode := none, entries := [] } 7 false
      = PathResult.err ∧
    path_for_inode
        { id := 0, path := ["r"], root_inode := some 2,
          entries := [Entry.File (some 2) "c" ["c"] 1 false false,
                      Entry.Dir (some 99) "b" 2 false false [1] false] } 1 false
      = PathResult.panicked :=
  ⟨path_for_inode_error_semantics.1 _ 7 false rfl,
   path_for_inode_error_semantics.2.1 _ 1 false
     (Entry.File (some 2) "c" ["c"] 1 false false)
     [Entry.Dir (some 99) "b" 2 false false [1] false]
     (by decide) (by decide)
     (BrokenChain.step _ _ _ (by decide)
       (BrokenChain.broken _ 99 (by decide) (by decide)))
     (by decide)⟩
